import Mathlib

/-!
Shallow embedding of the onboarding video-editor front end.

The definitions below translate the TypeScript source:
* `groupWordsIntoPhrases` (editor page): grouping word-level transcript
  tokens into phrases based on pauses, with a passthrough branch for
  cleaned-segment ("pre-grouped") input.
* `updateZoom` (VideoPreview): the magnification ramp applied while the
  playhead is inside the zoom region.
* `syncAudio` (VideoPreview): voiceover drift correction on `timeupdate`.
* `ZoomBlock.handleMouseMove` / `VideoTimeline` Add-Zoom: region
  creation, move, resize-left, resize-right.
* `videoUtils.generateMockSteps` and `videoUtils.captureVideoFrame`.
* `createStepsFromPhrases` (editor page): one-shot materialization of
  steps from transcript phrases.

Numbers are modelled as rationals; JS strings as Lean `String`.
-/

namespace Onboarding

/-- Drop leading and trailing whitespace from a character list. -/
def trimChars (l : List Char) : List Char :=
  ((l.dropWhile Char.isWhitespace).reverse.dropWhile Char.isWhitespace).reverse

/-- JS `String.prototype.trim()`: strip whitespace from both ends.
(Defined on the underlying character list so the kernel can evaluate it.) -/
def jsTrim (s : String) : String := ⟨trimChars s.data⟩

/-- A word-level transcript token as consumed by `groupWordsIntoPhrases`:
fields `word`, `start`, `end` (here `endS`, since `end` is reserved),
`is_cleaned_segment` and `id`.  Missing `id` is modelled as `""` (falsy). -/
structure Token where
  word : String
  start : ℚ
  endS : ℚ
  isCleanedSegment : Bool
  id : String
deriving DecidableEq, Repr

/-- `TranscriptPhrase` as produced by the grouping: `id`, `text`,
`start`, `end` (here `endS`). -/
structure TranscriptPhrase where
  id : String
  text : String
  start : ℚ
  endS : ℚ
deriving DecidableEq, Repr

/-- The mutable `currentPhrase` accumulator of the word-level scan. -/
structure CurPhrase where
  id : String
  text : String
  start : ℚ
  endS : ℚ
  words : List String
deriving DecidableEq, Repr

/-- Finalize `currentPhrase`: set `text = words.join(' ').trim()` and push
it onto `phrases` when the text is non-empty (source lines 264-267 and
284-288). -/
def pushCurPhrase (phrases : List TranscriptPhrase) (cur : CurPhrase) :
    List TranscriptPhrase :=
  let text := jsTrim (String.intercalate " " cur.words)
  if text = "" then phrases
  else phrases ++ [{ id := cur.id, text := text, start := cur.start, endS := cur.endS }]

/-- The word-level scan loop of `groupWordsIntoPhrases` (source lines
252-281 plus the final flush at 284-289), with the loop index `i`, the
accumulated `phrases` and the mutable `currentPhrase` made explicit. -/
def scanWords (pauseThreshold : ℚ) :
    List Token → ℕ → List TranscriptPhrase → CurPhrase → List TranscriptPhrase
  | [], _, phrases, cur =>
      if cur.words ≠ [] then pushCurPhrase phrases cur else phrases
  | w :: rest, i, phrases, cur =>
      let wordText := jsTrim w.word
      if wordText = "" then scanWords pauseThreshold rest (i + 1) phrases cur
      else
        if i > 0 ∧ cur.words ≠ [] ∧ w.start - cur.endS ≥ pauseThreshold then
          let flushed := pushCurPhrase phrases cur
          let newCur : CurPhrase :=
            { id := s!"phrase-{flushed.length}", text := "",
              start := w.start, endS := w.endS, words := [wordText] }
          scanWords pauseThreshold rest (i + 1) flushed newCur
        else
          scanWords pauseThreshold rest (i + 1) phrases
            { cur with words := cur.words ++ [wordText], endS := w.endS }

/-- The cleaned-segment ("pre-grouped") passthrough branch (source lines
232-240): map each token 1:1 to a phrase and drop empty-trimmed texts. -/
def cleanedPassthrough (words : List Token) : List TranscriptPhrase :=
  (words.mapIdx fun index seg =>
    { id := if seg.id = "" then s!"phrase-{index}" else seg.id,
      text := seg.word, start := seg.start, endS := seg.endS }).filter
    (fun p => ¬ jsTrim p.text = "")

/-- The word-level branch: initial `currentPhrase` takes `start`/`end`
from the raw first token (source lines 244-250), then the scan runs. -/
def wordLevelGrouping (words : List Token) (pauseThreshold : ℚ) :
    List TranscriptPhrase :=
  scanWords pauseThreshold words 0 []
    { id := "phrase-0", text := "",
      start := (words.head?.map Token.start).getD 0,
      endS := (words.head?.map Token.endS).getD 0,
      words := [] }

/-- `groupWordsIntoPhrases(words, pauseThreshold = 0.25)` (source lines
226-292): empty input yields `[]`; if `words.some(w => w.is_cleaned_segment)`
the passthrough applies; otherwise the pause-gap scan. -/
def groupWordsIntoPhrases (words : List Token) (pauseThreshold : ℚ := 1/4) :
    List TranscriptPhrase :=
  if words = [] then []
  else if words.any Token.isCleanedSegment then cleanedPassthrough words
  else wordLevelGrouping words pauseThreshold

/-! ### Spec-side reference for the pause-gap grouping (refinement target) -/

/-- `mapIdxFrom f n l` maps `f` over `l` with indices starting at `n`. -/
def mapIdxFrom (f : ℕ → α → β) : ℕ → List α → List β
  | _, [] => []
  | n, a :: l => f n a :: mapIdxFrom f (n + 1) l

/-- Split a token list into maximal runs, starting a new run exactly when
the gap between the end of the last accumulated token and the start of
the next token is `≥ thr` (spec wording).  `last` is the last token of
the current run `acc`. -/
def gapSplitGo (thr : ℚ) : List Token → Token → List Token → List (List Token)
  | [], _, acc => [acc]
  | t :: rest, last, acc =>
      if t.start - last.endS ≥ thr then acc :: gapSplitGo thr rest t [t]
      else gapSplitGo thr rest t (acc ++ [t])

/-- Split at pause gaps; a new phrase also starts at the first token. -/
def gapSplit (thr : ℚ) : List Token → List (List Token)
  | [] => []
  | t :: rest => gapSplitGo thr rest t [t]

/-- The phrase a run of tokens denotes: texts joined with single spaces
and trimmed, spanning the first token's start to the last token's end,
with a sequential id. -/
def phraseOfGroup (j : ℕ) (g : List Token) : TranscriptPhrase :=
  { id := s!"phrase-{j}",
    text := jsTrim (String.intercalate " " (g.map fun w => jsTrim w.word)),
    start := (g.head?.map Token.start).getD 0,
    endS := (g.getLast?.map Token.endS).getD 0 }

/-- The spec's description of the word-level grouping: scan tokens in
order, starting a new phrase exactly at pause gaps `≥ thr` or at the
first token; join texts with single spaces and trim; sequential ids. -/
def specGroupIntoPhrases (tokens : List Token) (thr : ℚ) : List TranscriptPhrase :=
  mapIdxFrom phraseOfGroup 0 (gapSplit thr tokens)

/-! ### Zoom magnification ramp (`VideoPreview.updateZoom`) -/

/-- `ZoomConfig` of `ZoomBlock`/`VideoPreview`: `enabled`, `startTime`,
`endTime`, `zoomLevel`, and center percentages (defaulted to 50 at use
sites). -/
structure ZoomConfig where
  enabled : Bool
  startTime : ℚ
  endTime : ℚ
  zoomLevel : ℚ
  centerX : ℚ
  centerY : ℚ
deriving DecidableEq, Repr

/-- `transitionDuration = 0.3` seconds (VideoPreview line 123). -/
def transitionDuration : ℚ := 3/10

/-- The magnification computed by `updateZoom` (VideoPreview lines
125-152) at playback time `time`; when the effect is disabled the hook
resets the zoom to 1 (lines 117-120). -/
def updateZoom (zoomConfig : ZoomConfig) (time : ℚ) : ℚ :=
  if ¬zoomConfig.enabled then 1
  else if zoomConfig.startTime ≤ time ∧ time ≤ zoomConfig.endTime then
    let zoomInEnd := zoomConfig.startTime + transitionDuration
    let zoomOutStart := zoomConfig.endTime - transitionDuration
    if time < zoomInEnd then
      1 + (zoomConfig.zoomLevel - 1) * min ((time - zoomConfig.startTime) / transitionDuration) 1
    else if time > zoomOutStart then
      zoomConfig.zoomLevel -
        (zoomConfig.zoomLevel - 1) * min ((time - zoomOutStart) / transitionDuration) 1
    else zoomConfig.zoomLevel
  else 1

/-- Clamp a progress value to `[0, 1]`. -/
def clampProgress (x : ℚ) : ℚ := max 0 (min x 1)

/-- The spec's reference piecewise magnification: 1.0 outside the
region; linear interpolation from 1.0 to `m` over the first
`min(transitionSeconds, regionWidth/2)` of the region (progress clamped
to `[0,1]`); linear interpolation from `m` back to 1.0 over the last
`transitionSeconds`; exactly `m` between the ramps. -/
def refMagnification (startS endS m t : ℚ) : ℚ :=
  let width := endS - startS
  let rampIn := min transitionDuration (width / 2)
  if t < startS ∨ endS < t then 1
  else if t ≤ startS + rampIn then 1 + (m - 1) * clampProgress ((t - startS) / rampIn)
  else if endS - transitionDuration ≤ t then
    m - (m - 1) * clampProgress ((t - (endS - transitionDuration)) / transitionDuration)
  else m

/-! ### Voiceover sync (`VideoPreview.syncAudio`) -/

/-- The voiceover audio element's state relevant to `syncAudio`. -/
structure AudioState where
  currentTime : ℚ
  paused : Bool
deriving DecidableEq, Repr

/-- `syncAudio` (VideoPreview lines 76-87), fired on video `timeupdate`:
when the video is playing, a paused audio is restarted at the video's
position; otherwise the audio position is rewritten only when the
absolute drift exceeds 0.5 seconds. -/
def syncAudio (videoPaused : Bool) (videoTime : ℚ) (audio : AudioState) : AudioState :=
  if ¬videoPaused then
    if audio.paused then { currentTime := videoTime, paused := false }
    else if |videoTime - audio.currentTime| > 1/2 then { audio with currentTime := videoTime }
    else audio
  else audio

/-! ### Zoom region creation and drag operations -/

/-- The Add-Zoom button handler (VideoTimeline lines 144-155): create a
region at the playhead with duration `min(3, safeDuration - currentTime)`,
zoom level 1.5, centered. -/
def addZoom (safeDuration currentTime : ℚ) : ZoomConfig :=
  let zoomDuration := min 3 (safeDuration - currentTime)
  { enabled := true, startTime := currentTime, endTime := currentTime + zoomDuration,
    zoomLevel := 3/2, centerX := 50, centerY := 50 }

/-- Drag-move branch of `ZoomBlock.handleMouseMove` (lines 69-78):
`rawStart = dragStartTime + deltaTime` is clamped so the region stays
inside `[0, safeDuration]` without changing its width. -/
def handleMouseMoveDrag (zoom : ZoomConfig) (safeDuration rawStart : ℚ) : ZoomConfig :=
  let zoomDuration := zoom.endTime - zoom.startTime
  let newStart := max 0 (min (safeDuration - zoomDuration) rawStart)
  { zoom with startTime := newStart, endTime := newStart + zoomDuration }

/-- Resize-left branch (lines 79-83): clamp the new start into
`[0, endTime - 0.5]`. -/
def handleMouseMoveResizeLeft (zoom : ZoomConfig) (rawStart : ℚ) : ZoomConfig :=
  { zoom with startTime := max 0 (min (zoom.endTime - 1/2) rawStart) }

/-- Resize-right branch (lines 84-88): clamp the new end into
`[startTime + 0.5, safeDuration]`. -/
def handleMouseMoveResizeRight (zoom : ZoomConfig) (safeDuration rawEnd : ℚ) : ZoomConfig :=
  { zoom with endTime := max (zoom.startTime + 1/2) (min safeDuration rawEnd) }

/-! ### Mock step generation (`videoUtils.generateMockSteps`) -/

/-- A JS number as far as `generateMockSteps`'s guard observes it:
finite (a rational) or one of the non-finite values. -/
inductive JSNum where
  | finite (q : ℚ)
  | nan
  | posInf
  | negInf
deriving DecidableEq, Repr

/-- `Number.isFinite`. -/
def JSNum.isFinite : JSNum → Bool
  | .finite _ => true
  | _ => false

/-- The rational value of a finite JS number (0 otherwise; only used
after the finiteness guard). -/
def JSNum.toRat : JSNum → ℚ
  | .finite q => q
  | _ => 0

/-- A step generated by `generateMockSteps`. -/
structure MockStep where
  id : String
  startTime : ℚ
  endTime : ℚ
  transcript : String
  title : String
deriving DecidableEq, Repr

/-- The `while (currentTime < duration && stepNumber <= maxSteps)` loop
of `generateMockSteps` (lines 207-220).  `fuel = maxSteps - stepNumber + 1`
counts the remaining allowed iterations, so `fuel = 0` is exactly
`stepNumber > maxSteps`. -/
def mockStepsLoop (duration intervalSeconds : ℚ) : ℚ → ℕ → ℕ → List MockStep
  | _, _, 0 => []
  | currentTime, stepNumber, fuel + 1 =>
      if currentTime < duration then
        let endTime := min (currentTime + intervalSeconds) duration
        { id := s!"step-{stepNumber}", startTime := currentTime, endTime := endTime,
          transcript := s!"This is step {stepNumber}. Add your description of what happens in this part of the video.",
          title := s!"Step {stepNumber}" } ::
          mockStepsLoop duration intervalSeconds endTime (stepNumber + 1) fuel
      else []

/-- `generateMockSteps(duration, intervalSeconds = 7)` (lines 186-223).
The source guard is a single short-circuit disjunction
`!Number.isFinite(duration) || duration <= 0 || duration > 3600`; a
non-finite duration returns `[]` through the first disjunct, so the
numeric comparisons only ever see a finite value. -/
def generateMockSteps (duration : JSNum) (intervalSeconds : ℚ := 7) : List MockStep :=
  if ¬duration.isFinite then []
  else
    let d := duration.toRat
    if d ≤ 0 ∨ d > 3600 then []
    else mockStepsLoop d intervalSeconds 0 1 100

/-! ### Screenshot capture (`videoUtils.captureVideoFrame`) -/

/-- The state of the source `<video>` element observed and mutated by
`captureVideoFrame`. -/
structure VideoElem where
  currentTime : ℚ
  duration : ℚ
deriving DecidableEq, Repr

/-- The capture timeout of `captureVideoFrame` in milliseconds
(line 131-135). -/
def captureTimeoutMs : ℕ := 5000

/-- How a single `captureVideoFrame` run ends: the `seeked` handler's
canvas draw succeeds or throws, the `error` handler fires, or the
timeout fires first. -/
inductive CaptureOutcome where
  | success
  | canvasError
  | seekError
  | timedOut
deriving DecidableEq, Repr

/-- `captureVideoFrame` (videoUtils lines 85-178) as a state transformer
on the video element, one exit path per `CaptureOutcome`.  The timestamp
is validated (`Number.isFinite(timestamp) && timestamp >= 0`, modelled
with an explicit finiteness flag), clamped to
`min(timestamp, video.duration || timestamp)`, the element is seeked to
the clamped time, and only the success path writes `originalTime` back
(line 148). -/
def captureVideoFrame (video : VideoElem) (timestamp : ℚ) (timestampFinite : Bool)
    (outcome : CaptureOutcome) : Except String String × VideoElem :=
  if ¬timestampFinite ∨ timestamp < 0 then (.error "Invalid timestamp", video)
  else
    let clampedTimestamp := min timestamp (if video.duration = 0 then timestamp else video.duration)
    let originalTime := video.currentTime
    let seeked : VideoElem := { video with currentTime := clampedTimestamp }
    match outcome with
    | .success => (.ok "dataUrl", { seeked with currentTime := originalTime })
    | .canvasError => (.error "Canvas error", seeked)
    | .seekError => (.error "Failed to seek video", seeked)
    | .timedOut => (.error "Screenshot capture timed out", seeked)

/-! ### One-shot step materialization (`createStepsFromPhrases`) -/

/-- A `VideoStep` as built from a transcript phrase (screenshot field
omitted: it is `undefined` at build time and irrelevant here). -/
structure VideoStep where
  id : String
  startTime : ℚ
  endTime : ℚ
  title : String
  transcript : String
deriving DecidableEq, Repr

/-- The editor state touched by the from-phrases build path: the
`stepsCreatedFromTranscriptRef` flag and the `steps` list. -/
structure EditorState where
  stepsCreatedFromTranscript : Bool
  steps : List VideoStep
deriving DecidableEq, Repr

/-- `phrase ↦ step` mapping (editor page lines 348-355):
`id = phrase.id || step-index`, times from the phrase,
`title = "Step ${index+1}"`, transcript from the phrase text. -/
def stepFromPhrase (index : ℕ) (phrase : TranscriptPhrase) : VideoStep :=
  { id := if phrase.id = "" then s!"step-{index}" else phrase.id,
    startTime := phrase.start, endTime := phrase.endS,
    title := s!"Step {index + 1}", transcript := phrase.text }

/-- `createStepsFromPhrases` (editor page lines 336-358): bail out on an
empty phrase list, a missing/zero duration, or a missing video element;
bail out when `stepsCreatedFromTranscriptRef` is already set; otherwise
set the flag and replace `steps` with the phrase-derived list. -/
def createStepsFromPhrases (transcriptPhrases : List TranscriptPhrase) (duration : ℚ)
    (hasVideo : Bool) (s : EditorState) : EditorState :=
  if transcriptPhrases = [] then s
  else if duration = 0 then s
  else if ¬hasVideo then s
  else if s.stepsCreatedFromTranscript then s
  else { stepsCreatedFromTranscript := true,
         steps := mapIdxFrom stepFromPhrase 0 transcriptPhrases }

/-- A manual edit of one step's title (StepEditor update path): rewrite
the step with the given id, leaving everything else unchanged. -/
def editStepTitle (stepId newTitle : String) (s : EditorState) : EditorState :=
  { s with steps := s.steps.map fun st =>
      if st.id = stepId then { st with title := newTitle } else st }

/-! ## Supporting lemmas -/

/-- Any run of `mockStepsLoop` produces at most `fuel` steps. -/
theorem mockStepsLoop_length_le (duration intervalSeconds : ℚ) :
    ∀ (fuel : ℕ) (currentTime : ℚ) (stepNumber : ℕ),
      (mockStepsLoop duration intervalSeconds currentTime stepNumber fuel).length ≤ fuel := by
  intro fuel
  induction fuel with
  | zero => intro _ _; simp [mockStepsLoop]
  | succ n ih =>
      intro ct sn
      rw [mockStepsLoop]
      split
      · simpa using ih _ _
      · simp

/-- Once the `stepsCreatedFromTranscriptRef` flag is set, every
invocation of the build path is the identity. -/
theorem createStepsFromPhrases_of_flag (phrases : List TranscriptPhrase) (d : ℚ)
    (hv : Bool) (s : EditorState) (h : s.stepsCreatedFromTranscript = true) :
    createStepsFromPhrases phrases d hv s = s := by
  unfold createStepsFromPhrases
  split_ifs <;> simp_all

/-- A successful build run sets the flag. -/
theorem createStepsFromPhrases_flag (phrases : List TranscriptPhrase) (d : ℚ)
    (s : EditorState) (hp : phrases ≠ []) (hd : d ≠ 0) :
    (createStepsFromPhrases phrases d true s).stepsCreatedFromTranscript = true := by
  unfold createStepsFromPhrases
  split_ifs <;> simp_all

/-- Editing a step title does not touch the materialization flag. -/
theorem editStepTitle_flag (stepId newTitle : String) (s : EditorState) :
    (editStepTitle stepId newTitle s).stepsCreatedFromTranscript =
      s.stepsCreatedFromTranscript := rfl

/-! ## Claims -/

/-- C3: the from-phrases build path runs at most once per transcript:
after one build (from a non-empty phrase list and non-zero duration), a
second invocation — also after a duration update and regardless of its
arguments — leaves the state unchanged, and a manual title edit made in
between is not discarded or reset. -/
theorem C3_steps_materialize_once (phrases : List TranscriptPhrase) (d : ℚ)
    (s₀ : EditorState) (hp : phrases ≠ []) (hd : d ≠ 0) :
    (createStepsFromPhrases phrases d true
        (createStepsFromPhrases phrases d true s₀) =
      createStepsFromPhrases phrases d true s₀) ∧
    (∀ (stepId newTitle : String) (phrases₂ : List TranscriptPhrase) (d₂ : ℚ) (hv₂ : Bool),
      createStepsFromPhrases phrases₂ d₂ hv₂
          (editStepTitle stepId newTitle (createStepsFromPhrases phrases d true s₀)) =
        editStepTitle stepId newTitle (createStepsFromPhrases phrases d true s₀)) := by
  have hflag := createStepsFromPhrases_flag phrases d s₀ hp hd
  refine ⟨createStepsFromPhrases_of_flag _ _ _ _ hflag, ?_⟩
  intro stepId newTitle phrases₂ d₂ hv₂
  exact createStepsFromPhrases_of_flag _ _ _ _ ((editStepTitle_flag _ _ _).trans hflag)

/-- Witness for C3 at a concrete transcript. -/
theorem C3_steps_materialize_once_witness :
    ([(⟨"p", "hello", 0, 1⟩ : TranscriptPhrase)] ≠ []) ∧ ((1 : ℚ) ≠ 0) ∧
    createStepsFromPhrases [⟨"p", "hello", 0, 1⟩] 1 true
        (createStepsFromPhrases [⟨"p", "hello", 0, 1⟩] 1 true ⟨false, []⟩) =
      createStepsFromPhrases [⟨"p", "hello", 0, 1⟩] 1 true ⟨false, []⟩ :=
  ⟨by simp, by norm_num,
    (C3_steps_materialize_once [⟨"p", "hello", 0, 1⟩] 1 ⟨false, []⟩ (by simp) (by norm_num)).1⟩

/-- C4: `generateMockSteps` returns an empty step list for non-finite,
non-positive, or over-an-hour durations (in particular for durations
-1 and 5000), and never returns more than 100 steps. -/
theorem C4_generateMockSteps_guard_and_cap :
    (∀ (d : JSNum) (i : ℚ), d.isFinite = false → generateMockSteps d i = []) ∧
    (∀ (q i : ℚ), q ≤ 0 ∨ q > 3600 → generateMockSteps (.finite q) i = []) ∧
    generateMockSteps (.finite (-1)) 7 = [] ∧
    generateMockSteps (.finite 5000) 7 = [] ∧
    (∀ (d : JSNum) (i : ℚ), (generateMockSteps d i).length ≤ 100) := by
  refine ⟨?_, ?_, ?_, ?_, ?_⟩
  · intro d i h
    unfold generateMockSteps
    simp [h]
  · intro q i h
    unfold generateMockSteps
    simp [JSNum.isFinite, JSNum.toRat, h]
  · norm_num [generateMockSteps, JSNum.isFinite, JSNum.toRat]
  · norm_num [generateMockSteps, JSNum.isFinite, JSNum.toRat]
  · intro d i
    simp only [generateMockSteps]
    split_ifs <;> first | simp | exact mockStepsLoop_length_le _ _ 100 0 1

/-- Witness for C4 at concrete durations. -/
theorem C4_generateMockSteps_guard_and_cap_witness :
    (JSNum.nan.isFinite = false) ∧ generateMockSteps .nan 7 = [] ∧
    ((-1 : ℚ) ≤ 0 ∨ (-1 : ℚ) > 3600) ∧ generateMockSteps (.finite (-1)) 7 = [] :=
  ⟨rfl, C4_generateMockSteps_guard_and_cap.1 .nan 7 rfl,
    Or.inl (by norm_num),
    C4_generateMockSteps_guard_and_cap.2.1 (-1) 7 (Or.inl (by norm_num))⟩

/-- C5: on `timeupdate` during continuous playback, a paused voiceover
is restarted at the video position; otherwise the audio position is
rewritten exactly when the absolute drift exceeds 0.5 s — a 0.4 s drift
causes no correction, a 0.6 s drift snaps audio to the video position. -/
theorem C5_syncAudio_threshold :
    (∀ (videoTime : ℚ) (audio : AudioState), audio.paused = true →
        syncAudio false videoTime audio = ⟨videoTime, false⟩) ∧
    (∀ (videoTime : ℚ) (audio : AudioState), audio.paused = false →
        (|videoTime - audio.currentTime| > 1/2 →
          syncAudio false videoTime audio = ⟨videoTime, false⟩) ∧
        (¬ |videoTime - audio.currentTime| > 1/2 →
          syncAudio false videoTime audio = audio)) ∧
    (∀ t : ℚ, syncAudio false (t + 2/5) ⟨t, false⟩ = ⟨t, false⟩) ∧
    (∀ t : ℚ, syncAudio false (t + 3/5) ⟨t, false⟩ = ⟨t + 3/5, false⟩) := by
  refine ⟨?_, ?_, ?_, ?_⟩
  · intro vt audio h
    simp [syncAudio, h]
  · intro vt audio h
    constructor
    · intro hd
      cases audio with
      | mk ct p =>
        unfold syncAudio
        rw [if_pos (by simp), if_neg (by simp [show p = false from h]), if_pos hd]
        rw [show p = false from h]
    · intro hd
      unfold syncAudio
      rw [if_pos (by simp), if_neg (by simp [h]), if_neg hd]
  · intro t
    have habs : |t + 2/5 - t| = (2/5 : ℚ) := by
      rw [show t + 2/5 - t = (2/5 : ℚ) by ring]
      exact abs_of_pos (by norm_num)
    unfold syncAudio
    rw [if_pos (by simp), if_neg (by simp), if_neg (by rw [habs]; norm_num)]
  · intro t
    have habs : |t + 3/5 - t| = (3/5 : ℚ) := by
      rw [show t + 3/5 - t = (3/5 : ℚ) by ring]
      exact abs_of_pos (by norm_num)
    unfold syncAudio
    rw [if_pos (by simp), if_neg (by simp), if_pos (by rw [habs]; norm_num)]

/-- Witness for C5 at concrete times. -/
theorem C5_syncAudio_threshold_witness :
    ((⟨3, true⟩ : AudioState).paused = true) ∧
    syncAudio false 7 ⟨3, true⟩ = ⟨7, false⟩ :=
  ⟨rfl, C5_syncAudio_threshold.1 7 ⟨3, true⟩ rfl⟩

/-- Counterexample to C6: creating a region at playhead 9.8 s in a 10 s
video yields width `min(3, 10 - 9.8) = 0.2 < 0.5`, so not every
reachable region state has width at least 0.5 s. -/
theorem C6_counterexample :
    (addZoom 10 (49/5)).endTime - (addZoom 10 (49/5)).startTime < 1/2 := by
  norm_num [addZoom]

/-- C6 (amended): move preserves the region width exactly; resize-right
always leaves width ≥ 0.5; resize-left leaves width ≥ 0.5 whenever
`endSeconds ≥ 0.5` (in particular a `[5, 5.3]` region's left edge clamps
to at most 4.8); but creation anchored at the playhead yields width
`min(3, duration - playhead)`, which is below 0.5 when the playhead is
within 0.5 s of the duration. -/
theorem C6_region_min_width_amended :
    (∀ (z : ZoomConfig) (d raw : ℚ),
        (handleMouseMoveDrag z d raw).endTime - (handleMouseMoveDrag z d raw).startTime =
          z.endTime - z.startTime) ∧
    (∀ (z : ZoomConfig) (raw : ℚ), 1/2 ≤ z.endTime →
        1/2 ≤ (handleMouseMoveResizeLeft z raw).endTime -
          (handleMouseMoveResizeLeft z raw).startTime) ∧
    (∀ (z : ZoomConfig) (d raw : ℚ),
        1/2 ≤ (handleMouseMoveResizeRight z d raw).endTime -
          (handleMouseMoveResizeRight z d raw).startTime) ∧
    (∀ raw : ℚ, (handleMouseMoveResizeLeft ⟨true, 5, 53/10, 2, 50, 50⟩ raw).startTime ≤ 24/5) ∧
    (handleMouseMoveResizeLeft ⟨true, 5, 53/10, 2, 50, 50⟩ 7).startTime = 24/5 ∧
    (∀ d t : ℚ, (addZoom d t).endTime - (addZoom d t).startTime = min 3 (d - t)) := by
  refine ⟨?_, ?_, ?_, ?_, ?_, ?_⟩
  · intro z d raw
    simp [handleMouseMoveDrag]
  · intro z raw h
    have hmax : max 0 (min (z.endTime - 1/2) raw) ≤ z.endTime - 1/2 :=
      max_le (by linarith) (min_le_left _ _)
    simp only [handleMouseMoveResizeLeft]
    linarith
  · intro z d raw
    have := le_max_left (z.startTime + 1/2) (min d raw)
    simp only [handleMouseMoveResizeRight]
    linarith
  · intro raw
    simp only [handleMouseMoveResizeLeft]
    exact max_le (by norm_num) (le_trans (min_le_left _ _) (by norm_num))
  · simp only [handleMouseMoveResizeLeft]
    norm_num
  · intro d t
    simp [addZoom]

/-- Witness for C6 (amended) at a concrete resize. -/
theorem C6_region_min_width_amended_witness :
    ((1 : ℚ)/2 ≤ (⟨true, 5, 53/10, 2, 50, 50⟩ : ZoomConfig).endTime) ∧
    1/2 ≤ (handleMouseMoveResizeLeft ⟨true, 5, 53/10, 2, 50, 50⟩ 7).endTime -
      (handleMouseMoveResizeLeft ⟨true, 5, 53/10, 2, 50, 50⟩ 7).startTime :=
  ⟨by norm_num,
    C6_region_min_width_amended.2.1 ⟨true, 5, 53/10, 2, 50, 50⟩ 7 (by norm_num)⟩

/-- Counterexample to C8: on the timeout exit path the video's
`currentTime` is left at the clamped seek target (7), not restored to
its pre-capture value (2). -/
theorem C8_counterexample :
    (captureVideoFrame ⟨2, 10⟩ 7 true CaptureOutcome.timedOut).2.currentTime ≠
      (VideoElem.mk 2 10).currentTime := by
  norm_num [captureVideoFrame]

/-- C8 (amended): the capture timeout is 5000 ms, inside the 5-15 s
range; the source video's `currentTime` is restored to its pre-capture
value on the successful path, while the canvas-error, seek-error and
timeout paths leave it at the clamped seek target; an invalid timestamp
leaves the element untouched. -/
theorem C8_capture_timeout_and_restore_amended :
    (5000 ≤ captureTimeoutMs ∧ captureTimeoutMs ≤ 15000) ∧
    (∀ (v : VideoElem) (ts : ℚ), 0 ≤ ts →
        (captureVideoFrame v ts true .success).2.currentTime = v.currentTime) ∧
    (∀ (v : VideoElem) (ts : ℚ) (o : CaptureOutcome), 0 ≤ ts → o ≠ .success →
        (captureVideoFrame v ts true o).2.currentTime =
          min ts (if v.duration = 0 then ts else v.duration)) ∧
    (∀ (v : VideoElem) (ts : ℚ) (o : CaptureOutcome), ts < 0 →
        (captureVideoFrame v ts true o).2 = v) := by
  refine ⟨⟨by norm_num [captureTimeoutMs], by norm_num [captureTimeoutMs]⟩, ?_, ?_, ?_⟩
  · intro v ts h
    simp [captureVideoFrame, not_lt.mpr h]
  · intro v ts o h ho
    cases o <;> simp_all [captureVideoFrame, not_lt.mpr h]
  · intro v ts o h
    cases o <;> simp [captureVideoFrame, h]

/-- Witness for C8 (amended) at a concrete capture. -/
theorem C8_capture_timeout_and_restore_amended_witness :
    ((0 : ℚ) ≤ 7) ∧
    (captureVideoFrame ⟨2, 10⟩ 7 true .success).2.currentTime =
      (VideoElem.mk 2 10).currentTime :=
  ⟨by norm_num, C8_capture_timeout_and_restore_amended.2.1 ⟨2, 10⟩ 7 (by norm_num)⟩

/-- Counterexample to C2: for the enabled region `[10, 10.5]` with
magnification 2, at `t = 10.26` the code is still in its ramp-in branch
(which runs to `startTime + 0.3` regardless of region width) and yields
`28/15 ≈ 1.867`, while the reference piecewise function is in its
ramp-out window and yields `9/5 = 1.8`. -/
theorem C2_counterexample :
    updateZoom ⟨true, 10, 21/2, 2, 50, 50⟩ (513/50) ≠
      refMagnification 10 (21/2) 2 (513/50) := by
  norm_num [updateZoom, refMagnification, clampProgress, transitionDuration]

/-- C2 (amended): for every enabled region of width at least
`2 * transitionSeconds = 0.6` the computed magnification equals the
reference piecewise function (the code's ramp-in branch runs over the
first `transitionSeconds` unconditionally, which agrees with
`min(transitionSeconds, regionWidth/2)` only then); the `[10,13]`,
magnification-2 instances all hold. -/
theorem C2_zoom_ramp_amended :
    (∀ startS endS m t : ℚ, endS - startS ≥ 3/5 →
        updateZoom ⟨true, startS, endS, m, 50, 50⟩ t = refMagnification startS endS m t) ∧
    updateZoom ⟨true, 10, 13, 2, 50, 50⟩ 10 = 1 ∧
    updateZoom ⟨true, 10, 13, 2, 50, 50⟩ (103/10) = 2 ∧
    updateZoom ⟨true, 10, 13, 2, 50, 50⟩ (23/2) = 2 ∧
    updateZoom ⟨true, 10, 13, 2, 50, 50⟩ (127/10) = 2 ∧
    updateZoom ⟨true, 10, 13, 2, 50, 50⟩ 13 = 1 ∧
    (∀ t : ℚ, t < 10 ∨ 13 < t → updateZoom ⟨true, 10, 13, 2, 50, 50⟩ t = 1) := by
  refine ⟨?_, ?_, ?_, ?_, ?_, ?_, ?_⟩
  · intro s e m t h
    simp only [updateZoom, refMagnification, clampProgress, transitionDuration] at *
    rw [show min (3/10 : ℚ) ((e - s) / 2) = 3/10 from min_eq_left (by linarith)]
    rw [if_neg (show ¬¬True from not_not_intro trivial)]
    by_cases hin : s ≤ t ∧ t ≤ e
    · obtain ⟨hst, hte⟩ := hin
      rw [if_pos (show s ≤ t ∧ t ≤ e from ⟨hst, hte⟩),
        if_neg (show ¬(t < s ∨ e < t) from by push_neg; exact ⟨hst, hte⟩)]
      by_cases h1 : t < s + 3/10
      · rw [if_pos (show t < s + 3/10 from h1), if_pos (show t ≤ s + 3/10 from le_of_lt h1),
          max_eq_right (le_min (div_nonneg (by linarith) (by norm_num)) zero_le_one)]
      · rw [if_neg (show ¬t < s + 3/10 from h1)]
        push_neg at h1
        by_cases h2 : e - 3/10 < t
        · rw [if_pos (show t > e - 3/10 from h2),
            if_neg (show ¬t ≤ s + 3/10 from by linarith),
            if_pos (show e - 3/10 ≤ t from le_of_lt h2),
            max_eq_right (le_min (div_nonneg (by linarith) (by norm_num)) zero_le_one)]
        · rw [if_neg (show ¬t > e - 3/10 from h2)]
          push_neg at h2
          by_cases h3 : t ≤ s + 3/10
          · have ht : t = s + 3/10 := le_antisymm h3 h1
            rw [if_pos (show t ≤ s + 3/10 from h3), ht, add_sub_cancel_left]
            norm_num
          · rw [if_neg (show ¬t ≤ s + 3/10 from h3)]
            by_cases h4 : e - 3/10 ≤ t
            · have ht : t = e - 3/10 := le_antisymm h2 h4
              rw [if_pos (show e - 3/10 ≤ t from h4), ht, sub_self]
              norm_num
            · rw [if_neg (show ¬e - 3/10 ≤ t from h4)]
    · rw [if_neg (show ¬(s ≤ t ∧ t ≤ e) from hin), if_pos ?_]
      rcases not_and_or.mp hin with h' | h'
      · exact Or.inl (not_le.mp h')
      · exact Or.inr (not_le.mp h')
  · norm_num [updateZoom, transitionDuration]
  · norm_num [updateZoom, transitionDuration]
  · norm_num [updateZoom, transitionDuration]
  · norm_num [updateZoom, transitionDuration]
  · norm_num [updateZoom, transitionDuration]
  · intro t ht
    simp only [updateZoom]
    rw [if_neg (show ¬¬True from not_not_intro trivial),
      if_neg (show ¬((10 : ℚ) ≤ t ∧ t ≤ 13) from by
        rintro ⟨h1, h2⟩; rcases ht with h | h <;> linarith)]

/-- Witness for C2 (amended): the region `[10,13]` has width `3 ≥ 0.6`,
and the code agrees with the reference at mid-region `t = 11.5`. -/
theorem C2_zoom_ramp_amended_witness :
    ((13 : ℚ) - 10 ≥ 3/5) ∧
    updateZoom ⟨true, 10, 13, 2, 50, 50⟩ (23/2) = refMagnification 10 13 2 (23/2) :=
  ⟨by norm_num, C2_zoom_ramp_amended.1 10 13 2 (23/2) (by norm_num)⟩

/-- Counterexample to C7: for the token list `[("a",0,1) pre-grouped,
("b",1.1,2) not pre-grouped]` — which contains a non-pre-grouped token —
the code still takes the passthrough branch (it tests
`words.some(w => w.is_cleaned_segment)`, not `every`), producing two
phrases instead of the single joined phrase the pause-gap scan yields
(the 0.1 s gap is below the 0.25 s threshold). -/
theorem C7_counterexample :
    (∃ w ∈ [(⟨"a", 0, 1, true, ""⟩ : Token), ⟨"b", 11/10, 2, false, ""⟩],
        w.isCleanedSegment = false) ∧
    groupWordsIntoPhrases [⟨"a", 0, 1, true, ""⟩, ⟨"b", 11/10, 2, false, ""⟩] (1/4) ≠
      wordLevelGrouping [⟨"a", 0, 1, true, ""⟩, ⟨"b", 11/10, 2, false, ""⟩] (1/4) := by
  refine ⟨⟨⟨"b", 11/10, 2, false, ""⟩, by simp, rfl⟩, ?_⟩
  have h1 : groupWordsIntoPhrases [⟨"a", 0, 1, true, ""⟩, ⟨"b", 11/10, 2, false, ""⟩] (1/4) =
      [⟨"phrase-0", "a", 0, 1⟩, ⟨"phrase-1", "b", 11/10, 2⟩] := by
    norm_num [groupWordsIntoPhrases, cleanedPassthrough]
    simp +decide
  have h2 : wordLevelGrouping [⟨"a", 0, 1, true, ""⟩, ⟨"b", 11/10, 2, false, ""⟩] (1/4) =
      [⟨"phrase-0", "a b", 0, 2⟩] := by
    norm_num [wordLevelGrouping, scanWords, pushCurPhrase]
    simp +decide
  rw [h1, h2]
  simp

/-- C7 (amended): the passthrough branch is selected exactly when at
least one token carries the pre-grouped flag (the source tests
`words.some(...)`); the pause-gap scan is applied exactly when no token
is pre-grouped. -/
theorem C7_pregrouped_passthrough_amended :
    ∀ (words : List Token) (thr : ℚ), words ≠ [] →
      ((∃ w ∈ words, w.isCleanedSegment = true) →
        groupWordsIntoPhrases words thr = cleanedPassthrough words) ∧
      ((∀ w ∈ words, w.isCleanedSegment = false) →
        groupWordsIntoPhrases words thr = wordLevelGrouping words thr) := by
  intro words thr hne
  constructor
  · rintro ⟨w, hw, hc⟩
    unfold groupWordsIntoPhrases
    rw [if_neg hne, if_pos (List.any_eq_true.mpr ⟨w, hw, hc⟩)]
  · intro hall
    unfold groupWordsIntoPhrases
    have hany : words.any Token.isCleanedSegment = false :=
      List.any_eq_false.mpr fun x hx => by simp [hall x hx]
    rw [if_neg hne, if_neg (by simp [hany])]

/-- Witness for C7 (amended) at concrete token lists. -/
theorem C7_pregrouped_passthrough_amended_witness :
    ([(⟨"a", 0, 1, true, ""⟩ : Token)] ≠ []) ∧
    groupWordsIntoPhrases [⟨"a", 0, 1, true, ""⟩] (1/4) =
      cleanedPassthrough [⟨"a", 0, 1, true, ""⟩] :=
  ⟨by simp,
    (C7_pregrouped_passthrough_amended [⟨"a", 0, 1, true, ""⟩] (1/4) (by simp)).1
      ⟨⟨"a", 0, 1, true, ""⟩, by simp, rfl⟩⟩

/-! ### Lemmas about `jsTrim` -/

theorem dropWhile_head_false (p : α → Bool) :
    ∀ (l : List α) (a : α) (as : List α), l.dropWhile p = a :: as → p a = false := by
  intro l
  induction l with
  | nil => intro a as h; simp at h
  | cons x xs ih =>
      intro a as h
      by_cases hx : p x
      · rw [List.dropWhile_cons_of_pos hx] at h
        exact ih a as h
      · rw [List.dropWhile_cons_of_neg hx] at h
        injection h with h1 h2
        subst h1
        simpa using hx

theorem dropWhile_eq_self_of_head (p : α → Bool) (l : List α)
    (h : ∀ a, l.head? = some a → p a = false) : l.dropWhile p = l := by
  cases l with
  | nil => rfl
  | cons x xs =>
      rw [List.dropWhile_cons_of_neg]
      simp [h x rfl]

theorem trimChars_isPrefixOfDropWhile (l : List Char) :
    trimChars l <+: l.dropWhile Char.isWhitespace := by
  have h : (l.dropWhile Char.isWhitespace).reverse.dropWhile Char.isWhitespace <:+
      (l.dropWhile Char.isWhitespace).reverse := List.dropWhile_suffix _
  have h2 := h.reverse
  rw [List.reverse_reverse] at h2
  exact h2

theorem trimChars_head_false (l : List Char) (a : Char)
    (h : (trimChars l).head? = some a) : a.isWhitespace = false := by
  obtain ⟨t, ht⟩ := trimChars_isPrefixOfDropWhile l
  have hD : (l.dropWhile Char.isWhitespace).head? = some a := by
    rw [← ht, List.head?_append, h]
    rfl
  cases hDW : l.dropWhile Char.isWhitespace with
  | nil => rw [hDW] at hD; simp at hD
  | cons x xs =>
      rw [hDW] at hD
      simp only [List.head?_cons, Option.some.injEq] at hD
      subst hD
      exact dropWhile_head_false _ l x xs hDW

theorem trimChars_reverse (l : List Char) :
    (trimChars l).reverse =
      (l.dropWhile Char.isWhitespace).reverse.dropWhile Char.isWhitespace := by
  unfold trimChars
  rw [List.reverse_reverse]

theorem trimChars_idem (l : List Char) : trimChars (trimChars l) = trimChars l := by
  have h1 : (trimChars l).dropWhile Char.isWhitespace = trimChars l :=
    dropWhile_eq_self_of_head _ _ (fun a ha => trimChars_head_false l a ha)
  have h2 : (trimChars l).reverse.dropWhile Char.isWhitespace = (trimChars l).reverse := by
    rw [trimChars_reverse]
    apply dropWhile_eq_self_of_head
    intro a ha
    cases hD : (l.dropWhile Char.isWhitespace).reverse.dropWhile Char.isWhitespace with
    | nil => rw [hD] at ha; simp at ha
    | cons x xs =>
        rw [hD] at ha
        simp only [List.head?_cons, Option.some.injEq] at ha
        subst ha
        exact dropWhile_head_false _ _ x xs hD
  show (((trimChars l).dropWhile Char.isWhitespace).reverse.dropWhile
      Char.isWhitespace).reverse = trimChars l
  rw [h1, h2, List.reverse_reverse]

theorem trimChars_eq_nil_iff (l : List Char) :
    trimChars l = [] ↔ ∀ c ∈ l, c.isWhitespace := by
  unfold trimChars
  rw [List.reverse_eq_nil_iff, List.dropWhile_eq_nil_iff]
  constructor
  · intro h c hc
    rw [← List.takeWhile_append_dropWhile (p := Char.isWhitespace) (l := l)] at hc
    rcases List.mem_append.mp hc with h' | h'
    · exact List.mem_takeWhile_imp h'
    · exact h c (List.mem_reverse.mpr h')
  · intro h x hx
    exact h x (List.dropWhile_subset _ (List.mem_reverse.mp hx))

theorem string_mk_eq_empty_iff (l : List Char) : (⟨l⟩ : String) = "" ↔ l = [] :=
  ⟨fun h => congrArg String.data h, fun h => by subst h; rfl⟩

theorem jsTrim_idem (s : String) : jsTrim (jsTrim s) = jsTrim s :=
  congrArg String.mk (trimChars_idem s.data)

theorem jsTrim_eq_empty_iff (s : String) :
    jsTrim s = "" ↔ ∀ c ∈ s.data, c.isWhitespace := by
  rw [← trimChars_eq_nil_iff s.data]
  unfold jsTrim
  exact string_mk_eq_empty_iff _

theorem jsTrim_ne_empty (s : String) (c : Char) (hc : c ∈ s.data)
    (hw : c.isWhitespace = false) : jsTrim s ≠ "" := by
  rw [Ne, jsTrim_eq_empty_iff]
  intro h
  have := h c hc
  simp [hw] at this

theorem exists_not_ws_of_jsTrim_ne (s : String) (h : jsTrim s ≠ "") :
    ∃ c ∈ (jsTrim s).data, c.isWhitespace = false := by
  cases hT : (jsTrim s).data with
  | nil =>
      exact absurd ((string_mk_eq_empty_iff (trimChars s.data)).mpr hT) h
  | cons c cs =>
      refine ⟨c, by simp, ?_⟩
      refine trimChars_head_false s.data c ?_
      rw [show trimChars s.data = c :: cs from hT]
      rfl

theorem mem_data_intercalate_go (sep : String) (c : Char) :
    ∀ (as : List String) (acc : String),
      c ∈ acc.data → c ∈ (String.intercalate.go acc sep as).data := by
  intro as
  induction as with
  | nil => intro acc h; exact h
  | cons a as ih =>
      intro acc h
      show c ∈ (String.intercalate.go (acc ++ sep ++ a) sep as).data
      refine ih _ ?_
      rw [String.data_append, String.data_append]
      exact List.mem_append_left _ (List.mem_append_left _ h)

theorem mem_data_intercalate_head (sep w : String) (rest : List String) (c : Char)
    (h : c ∈ w.data) : c ∈ (String.intercalate sep (w :: rest)).data :=
  mem_data_intercalate_go sep c rest w h

theorem jsTrim_intercalate_ne_empty (w : String) (rest : List String)
    (h : jsTrim w ≠ "") : jsTrim (String.intercalate " " (jsTrim w :: rest)) ≠ "" := by
  obtain ⟨c, hc, hw⟩ := exists_not_ws_of_jsTrim_ne w h
  exact jsTrim_ne_empty _ c (mem_data_intercalate_head " " _ rest c hc) hw

/-! ### Skipping empty-trimmed tokens (C9) -/

/-- The tokens kept when "removing all empty-trimmed-text tokens". -/
def keepToken (w : Token) : Bool := !(jsTrim w.word == "")

/-- Past the first position, the scan is insensitive to both the loop
index and the presence of empty-trimmed tokens: filtering them out of
the remaining input does not change the result. -/
theorem scanWords_filter (thr : ℚ) :
    ∀ (rest : List Token) (i j : ℕ) (phrases : List TranscriptPhrase) (cur : CurPhrase),
      1 ≤ i → 1 ≤ j →
      scanWords thr (rest.filter keepToken) j phrases cur =
        scanWords thr rest i phrases cur := by
  intro rest
  induction rest with
  | nil => intro i j phrases cur hi hj; rfl
  | cons w rest ih =>
      intro i j phrases cur hi hj
      by_cases he : jsTrim w.word = ""
      · rw [List.filter_cons_of_neg (by simp [keepToken, he])]
        conv_rhs => rw [scanWords]
        rw [if_pos he]
        exact ih (i + 1) j phrases cur (Nat.le_succ_of_le hi) hj
      · rw [List.filter_cons_of_pos (by simp [keepToken, he])]
        rw [scanWords]
        conv_rhs => rw [scanWords]
        rw [if_neg he, if_neg he]
        by_cases hx : cur.words ≠ [] ∧ w.start - cur.endS ≥ thr
        · rw [if_pos ⟨hj, hx.1, hx.2⟩, if_pos ⟨hi, hx.1, hx.2⟩]
          exact ih (i + 1) (j + 1) _ _ (Nat.le_succ_of_le hi) (Nat.le_succ_of_le hj)
        · rw [if_neg (fun hcon => hx ⟨hcon.2.1, hcon.2.2⟩),
            if_neg (fun hcon => hx ⟨hcon.2.1, hcon.2.2⟩)]
          exact ih (i + 1) (j + 1) _ _ (Nat.le_succ_of_le hi) (Nat.le_succ_of_le hj)

/-- Counterexample to C9: removing the empty-text first token
`("", 0, 1)` from `[("", 0, 1), ("a", 5, 6)]` changes the output: the
first phrase's start is taken from the raw first token (0), not from the
first non-empty token (5). -/
theorem C9_counterexample :
    groupWordsIntoPhrases
        ([⟨"", 0, 1, false, ""⟩, ⟨"a", 5, 6, false, ""⟩].filter keepToken) (1/4) ≠
      groupWordsIntoPhrases [⟨"", 0, 1, false, ""⟩, ⟨"a", 5, 6, false, ""⟩] (1/4) := by
  have hf : [⟨"", 0, 1, false, ""⟩, (⟨"a", 5, 6, false, ""⟩ : Token)].filter keepToken =
      [⟨"a", 5, 6, false, ""⟩] := by
    simp +decide [keepToken]
  rw [hf]
  have h1 : groupWordsIntoPhrases [(⟨"a", 5, 6, false, ""⟩ : Token)] (1/4) =
      [⟨"phrase-0", "a", 5, 6⟩] := by
    norm_num [groupWordsIntoPhrases, wordLevelGrouping, scanWords, pushCurPhrase]
    simp +decide
  have h2 : groupWordsIntoPhrases [⟨"", 0, 1, false, ""⟩, ⟨"a", 5, 6, false, ""⟩] (1/4) =
      [⟨"phrase-0", "a", 0, 6⟩] := by
    norm_num [groupWordsIntoPhrases, wordLevelGrouping, scanWords, pushCurPhrase]
    simp +decide
  rw [h1, h2]
  intro hcon
  simp only [List.cons.injEq, TranscriptPhrase.mk.injEq] at hcon
  exact absurd hcon.1.2.2.1 (by norm_num)

/-- C9 (amended): empty input yields empty output; a single non-empty
word-level token yields the single phrase carrying its trimmed text and
its span; and in word-level mode, removing all empty-trimmed-text tokens
leaves the output unchanged *provided the first token is non-empty* —
the first phrase's start is read from the raw first token, so a leading
empty token can shift it (as the counterexample shows). -/
theorem C9_empty_tokens_amended :
    (∀ thr : ℚ, groupWordsIntoPhrases [] thr = []) ∧
    (∀ (t : Token) (thr : ℚ), t.isCleanedSegment = false → jsTrim t.word ≠ "" →
        groupWordsIntoPhrases [t] thr = [⟨"phrase-0", jsTrim t.word, t.start, t.endS⟩]) ∧
    (∀ (w₀ : Token) (rest : List Token) (thr : ℚ), jsTrim w₀.word ≠ "" →
        (∀ w ∈ w₀ :: rest, w.isCleanedSegment = false) →
        groupWordsIntoPhrases ((w₀ :: rest).filter keepToken) thr =
          groupWordsIntoPhrases (w₀ :: rest) thr) := by
  refine ⟨fun thr => rfl, ?_, ?_⟩
  · intro t thr hc he
    unfold groupWordsIntoPhrases
    rw [if_neg (by simp), if_neg (by simp [hc])]
    unfold wordLevelGrouping
    rw [scanWords, if_neg he, if_neg (by simp)]
    rw [scanWords, if_pos (by simp)]
    have hsingle : String.intercalate " " [jsTrim t.word] = jsTrim t.word := rfl
    simp [pushCurPhrase, hsingle, jsTrim_idem, he]
  · intro w₀ rest thr h0 hall
    rw [List.filter_cons_of_pos (by simp [keepToken, h0])]
    unfold groupWordsIntoPhrases
    rw [if_neg (show ¬(w₀ :: rest.filter keepToken) = [] by simp),
      if_neg (show ¬(w₀ :: rest) = [] by simp)]
    have hany2 : (w₀ :: rest).any Token.isCleanedSegment = false :=
      List.any_eq_false.mpr fun x hx => by simp [hall x hx]
    have hany1 : (w₀ :: rest.filter keepToken).any Token.isCleanedSegment = false := by
      refine List.any_eq_false.mpr fun x hx => ?_
      rcases List.mem_cons.mp hx with rfl | hx'
      · simp [hall x (List.mem_cons_self _ _)]
      · simp [hall x (List.mem_cons_of_mem _ (List.mem_of_mem_filter hx'))]
    rw [if_neg (show ¬((w₀ :: rest.filter keepToken).any Token.isCleanedSegment = true) from
        by simp [hany1]),
      if_neg (show ¬((w₀ :: rest).any Token.isCleanedSegment = true) from by simp [hany2])]
    unfold wordLevelGrouping
    simp only [List.head?_cons, Option.map_some, Option.getD_some]
    rw [scanWords, if_neg h0, if_neg (by simp)]
    conv_rhs => rw [scanWords]
    rw [if_neg h0, if_neg (by simp)]
    exact scanWords_filter thr rest 1 1 _ _ le_rfl le_rfl

/-- Witness for C9 (amended): dropping a trailing empty token does not
change the grouping. -/
theorem C9_empty_tokens_amended_witness :
    (jsTrim (Token.word ⟨"a", 0, 1, false, ""⟩) ≠ "") ∧
    groupWordsIntoPhrases
        ([⟨"a", 0, 1, false, ""⟩, ⟨"", 2, 3, false, ""⟩].filter keepToken) (1/4) =
      groupWordsIntoPhrases [⟨"a", 0, 1, false, ""⟩, ⟨"", 2, 3, false, ""⟩] (1/4) :=
  ⟨by decide,
    C9_empty_tokens_amended.2.2 ⟨"a", 0, 1, false, ""⟩ [⟨"", 2, 3, false, ""⟩] (1/4)
      (by decide) (by simp)⟩

/-! ### Phrase ordering invariants (C10) -/

/-- The ordering relation between consecutive phrases. -/
def phraseRel (a b : TranscriptPhrase) : Prop := a.endS ≤ b.start

/-- `pushCurPhrase` preserves well-formedness of the accumulated phrase
list: all phrases stay well-ordered, and the last phrase (if any) ends
no later than `cur.endS`. -/
theorem pushCurPhrase_good (phrases : List TranscriptPhrase) (cur : CurPhrase)
    (hφ : ∀ p ∈ phrases, p.start ≤ p.endS)
    (hch : List.Chain' phraseRel phrases)
    (hlast : ∀ p ∈ phrases.getLast?, p.endS ≤ cur.start)
    (hcur : cur.start ≤ cur.endS) :
    (∀ p ∈ pushCurPhrase phrases cur, p.start ≤ p.endS) ∧
      List.Chain' phraseRel (pushCurPhrase phrases cur) ∧
      (∀ p ∈ (pushCurPhrase phrases cur).getLast?, p.endS ≤ cur.endS) := by
  simp only [pushCurPhrase]
  split_ifs with ht
  · exact ⟨hφ, hch, fun p hp => le_trans (hlast p hp) hcur⟩
  · refine ⟨?_, ?_, ?_⟩
    · intro p hp
      rcases List.mem_append.mp hp with h | h
      · exact hφ p h
      · simp only [List.mem_singleton] at h
        subst h
        exact hcur
    · refine List.chain'_append.mpr ⟨hch, List.chain'_singleton _, ?_⟩
      intro x hx y hy
      simp only [List.head?_cons, Option.mem_def, Option.some.injEq] at hy
      subst hy
      exact hlast x hx
    · intro p hp
      rw [List.getLast?_concat] at hp
      simp only [Option.mem_def, Option.some.injEq] at hp
      subst hp
      exact le_rfl

/-- Invariant of the word-level scan: given sorted, well-formed
remaining tokens and a well-formed accumulator state, the final phrase
list is well-formed and ordered. -/
theorem scanWords_invariant (thr : ℚ) (h0 : 0 ≤ thr) :
    ∀ (ws : List Token) (i : ℕ) (phrases : List TranscriptPhrase) (cur : CurPhrase),
      List.Pairwise (fun a b : Token => a.start ≤ b.start) ws →
      (∀ w ∈ ws, w.start ≤ w.endS) →
      (∀ w ∈ ws, cur.start ≤ w.start) →
      (cur.words ≠ [] → cur.start ≤ cur.endS) →
      (∀ p ∈ phrases, p.start ≤ p.endS) →
      List.Chain' phraseRel phrases →
      (∀ p ∈ phrases.getLast?, p.endS ≤ cur.start) →
      (∀ p ∈ scanWords thr ws i phrases cur, p.start ≤ p.endS) ∧
        List.Chain' phraseRel (scanWords thr ws i phrases cur) := by
  intro ws
  induction ws with
  | nil =>
      intro i phrases cur _ _ _ h2 h3 h4 h5
      rw [scanWords]
      split_ifs with hw
      · obtain ⟨a, b, _⟩ := pushCurPhrase_good phrases cur h3 h4 h5 (h2 hw)
        exact ⟨a, b⟩
      · exact ⟨h3, h4⟩
  | cons w rest ih =>
      intro i phrases cur hsort hok h1 h2 h3 h4 h5
      rw [scanWords]
      split_ifs with he hc
      · exact ih (i + 1) phrases cur hsort.of_cons (fun x hx => hok x (List.mem_cons_of_mem _ hx))
          (fun x hx => h1 x (List.mem_cons_of_mem _ hx)) h2 h3 h4 h5
      · obtain ⟨hi, hwne, hgap⟩ := hc
        obtain ⟨pa, pb, pc⟩ := pushCurPhrase_good phrases cur h3 h4 h5 (h2 hwne)
        refine ih (i + 1) _ _ hsort.of_cons
          (fun x hx => hok x (List.mem_cons_of_mem _ hx))
          (fun x hx => (List.pairwise_cons.mp hsort).1 x hx) ?_ pa pb ?_
        · intro _
          exact hok w (List.mem_cons_self _ _)
        · intro p hp
          exact le_trans (pc p hp) (by linarith)
      · refine ih (i + 1) phrases _ hsort.of_cons
          (fun x hx => hok x (List.mem_cons_of_mem _ hx))
          (fun x hx => h1 x (List.mem_cons_of_mem _ hx)) ?_ h3 h4 h5
        intro _
        exact le_trans (h1 w (List.mem_cons_self _ _)) (hok w (List.mem_cons_self _ _))

/-- C10: on word-level input sorted by start time with `start ≤ end` per
token, every produced phrase satisfies `startSeconds ≤ endSeconds` and
consecutive phrases do not overlap (`phrase[i].endSeconds ≤
phrase[i+1].startSeconds`), for any non-negative pause threshold
(including the default 0.25). -/
theorem C10_phrase_ordering (words : List Token) (thr : ℚ) (h0 : 0 ≤ thr)
    (hsort : List.Pairwise (fun a b : Token => a.start ≤ b.start) words)
    (hok : ∀ w ∈ words, w.start ≤ w.endS)
    (hwl : ∀ w ∈ words, w.isCleanedSegment = false) :
    (∀ p ∈ groupWordsIntoPhrases words thr, p.start ≤ p.endS) ∧
      List.Chain' (fun a b : TranscriptPhrase => a.endS ≤ b.start)
        (groupWordsIntoPhrases words thr) := by
  cases words with
  | nil => simp [groupWordsIntoPhrases]
  | cons w rest =>
      unfold groupWordsIntoPhrases
      have hany : (w :: rest).any Token.isCleanedSegment = false :=
        List.any_eq_false.mpr fun x hx => by simp [hwl x hx]
      rw [if_neg (show ¬(w :: rest) = [] by simp),
        if_neg (show ¬((w :: rest).any Token.isCleanedSegment = true) from by simp [hany])]
      unfold wordLevelGrouping
      simp only [List.head?_cons]
      refine scanWords_invariant thr h0 (w :: rest) 0 [] _ hsort hok ?_ ?_ ?_ ?_ ?_
      · intro x hx
        rcases List.mem_cons.mp hx with rfl | hx'
        · exact le_rfl
        · exact (List.pairwise_cons.mp hsort).1 x hx'
      · intro hcon
        exact absurd rfl hcon
      · intro p hp
        simp at hp
      · exact List.chain'_nil
      · intro p hp
        simp at hp

/-- Witness for C10 at a concrete sorted token list. -/
theorem C10_phrase_ordering_witness :
    (∀ p ∈ groupWordsIntoPhrases
        [(⟨"a", 0, 1, false, ""⟩ : Token), ⟨"b", 2, 3, false, ""⟩] (1/4),
      p.start ≤ p.endS) ∧
    List.Chain' (fun a b : TranscriptPhrase => a.endS ≤ b.start)
      (groupWordsIntoPhrases [(⟨"a", 0, 1, false, ""⟩ : Token), ⟨"b", 2, 3, false, ""⟩] (1/4)) :=
  C10_phrase_ordering [⟨"a", 0, 1, false, ""⟩, ⟨"b", 2, 3, false, ""⟩] (1/4)
    (by norm_num)
    (by
      refine List.pairwise_cons.mpr ⟨?_, ?_⟩
      · intro x hx
        simp only [List.mem_singleton] at hx
        subst hx
        norm_num
      · simp)
    (by
      intro x hx
      rcases List.mem_cons.mp hx with rfl | hx'
      · norm_num
      · simp only [List.mem_singleton] at hx'
        subst hx'
        norm_num)
    (by
      intro x hx
      rcases List.mem_cons.mp hx with rfl | hx'
      · rfl
      · simp only [List.mem_singleton] at hx'
        subst hx'
        rfl)

/-! ### Equivalence of the scan with the spec's description (C1) -/

theorem head?_append_of_ne (acc l : List α) (h : acc ≠ []) :
    (acc ++ l).head? = acc.head? := by
  cases acc with
  | nil => exact absurd rfl h
  | cons a acc' => rfl

/-- Flushing the accumulator appends exactly the phrase its token run
denotes. -/
theorem pushCurPhrase_eq (phrases : List TranscriptPhrase) (cur : CurPhrase)
    (acc : List Token) (last : Token)
    (hacc : acc ≠ []) (hlast : acc.getLast? = some last)
    (hne : ∀ w ∈ acc, jsTrim w.word ≠ "")
    (hid : cur.id = s!"phrase-{phrases.length}")
    (hstart : cur.start = (acc.head?.map Token.start).getD 0)
    (hendS : cur.endS = last.endS)
    (hwords : cur.words = acc.map fun w => jsTrim w.word) :
    pushCurPhrase phrases cur = phrases ++ [phraseOfGroup phrases.length acc] := by
  obtain ⟨a₀, acc', rfl⟩ : ∃ a₀ acc', acc = a₀ :: acc' := by
    cases acc with
    | nil => exact absurd rfl hacc
    | cons a₀ acc' => exact ⟨a₀, acc', rfl⟩
  have htext : jsTrim (String.intercalate " " cur.words) ≠ "" := by
    rw [hwords]
    simp only [List.map_cons]
    exact jsTrim_intercalate_ne_empty a₀.word _ (hne a₀ (List.mem_cons_self _ _))
  simp only [pushCurPhrase]
  rw [if_neg htext]
  simp [phraseOfGroup, hid, hstart, hendS, hwords, hlast]

/-- Away from the first position, the scan produces exactly the phrases
of the spec's gap-split of the remaining tokens (offset by the phrases
already emitted), provided every token has non-empty trimmed text. -/
theorem scanWords_eq_gapSplitGo (thr : ℚ) :
    ∀ (rest : List Token) (i : ℕ) (phrases : List TranscriptPhrase)
      (acc : List Token) (last : Token) (cur : CurPhrase),
      1 ≤ i →
      acc ≠ [] →
      acc.getLast? = some last →
      (∀ w ∈ acc, jsTrim w.word ≠ "") →
      (∀ w ∈ rest, jsTrim w.word ≠ "") →
      cur.id = s!"phrase-{phrases.length}" →
      cur.start = (acc.head?.map Token.start).getD 0 →
      cur.endS = last.endS →
      cur.words = (acc.map fun w => jsTrim w.word) →
      scanWords thr rest i phrases cur =
        phrases ++ mapIdxFrom phraseOfGroup phrases.length (gapSplitGo thr rest last acc) := by
  intro rest
  induction rest with
  | nil =>
      intro i phrases acc last cur hi hacc hlast hne _ hid hstart hendS hwords
      rw [scanWords, if_pos (by rw [hwords]; simpa using hacc)]
      rw [pushCurPhrase_eq phrases cur acc last hacc hlast hne hid hstart hendS hwords]
      simp [gapSplitGo, mapIdxFrom]
  | cons w rest' ih =>
      intro i phrases acc last cur hi hacc hlast hne hrest hid hstart hendS hwords
      have hw : jsTrim w.word ≠ "" := hrest w (List.mem_cons_self _ _)
      rw [scanWords, if_neg hw]
      by_cases hgap : w.start - last.endS ≥ thr
      · rw [if_pos ⟨hi, by rw [hwords]; simpa using hacc, by rw [hendS]; exact hgap⟩]
        rw [pushCurPhrase_eq phrases cur acc last hacc hlast hne hid hstart hendS hwords]
        have hrec := ih (i + 1) (phrases ++ [phraseOfGroup phrases.length acc])
          [w] w
          { id := s!"phrase-{(phrases ++ [phraseOfGroup phrases.length acc]).length}",
            text := "", start := w.start, endS := w.endS, words := [jsTrim w.word] }
          (Nat.le_succ_of_le hi) (by simp) rfl
          (by intro x hx; simp only [List.mem_singleton] at hx; subst hx; exact hw)
          (fun x hx => hrest x (List.mem_cons_of_mem _ hx))
          rfl (by simp) rfl (by simp)
        rw [hrec]
        rw [gapSplitGo, if_pos hgap]
        simp [mapIdxFrom, List.length_append]
      · rw [if_neg (fun hcon => hgap (by rw [hendS] at hcon; exact hcon.2.2))]
        have hrec := ih (i + 1) phrases (acc ++ [w]) w
          { cur with words := cur.words ++ [jsTrim w.word], endS := w.endS }
          (Nat.le_succ_of_le hi) (by simp) (List.getLast?_concat acc)
          (by
            intro x hx
            rcases List.mem_append.mp hx with h | h
            · exact hne x h
            · simp only [List.mem_singleton] at h; subst h; exact hw)
          (fun x hx => hrest x (List.mem_cons_of_mem _ hx))
          hid
          (by rw [head?_append_of_ne acc [w] hacc]; exact hstart)
          rfl
          (by rw [List.map_append, hwords]; rfl)
        rw [hrec]
        rw [gapSplitGo, if_neg hgap]

/-- C1: on word-level input whose tokens all have non-empty trimmed text,
`groupWordsIntoPhrases` produces exactly the phrases described by the
spec: phrases split exactly where the gap from the end of the last
accumulated token to the next token's start is `≥ pauseThresholdSeconds`
(or at the first token), texts joined by single spaces and trimmed,
sequential ids; and the `[("Hello",0,0.4), ("world",0.45,0.9),
("Goodbye",1.5,1.9)]`, threshold-0.25 example yields exactly the two
phrases `"Hello world"` (0-0.9) and `"Goodbye"` (1.5-1.9). -/
theorem C1_pause_grouping :
    (∀ (tokens : List Token) (thr : ℚ),
        tokens ≠ [] →
        (∀ w ∈ tokens, w.isCleanedSegment = false) →
        (∀ w ∈ tokens, jsTrim w.word ≠ "") →
        groupWordsIntoPhrases tokens thr = specGroupIntoPhrases tokens thr) ∧
    groupWordsIntoPhrases
        [⟨"Hello", 0, 2/5, false, ""⟩, ⟨"world", 9/20, 9/10, false, ""⟩,
         ⟨"Goodbye", 3/2, 19/10, false, ""⟩] (1/4) =
      [⟨"phrase-0", "Hello world", 0, 9/10⟩, ⟨"phrase-1", "Goodbye", 3/2, 19/10⟩] := by
  constructor
  · intro tokens thr hne hwl hnee
    obtain ⟨t, ts, rfl⟩ : ∃ t ts, tokens = t :: ts := by
      cases tokens with
      | nil => exact absurd rfl hne
      | cons t ts => exact ⟨t, ts, rfl⟩
    have hany : (t :: ts).any Token.isCleanedSegment = false :=
      List.any_eq_false.mpr fun x hx => by simp [hwl x hx]
    unfold groupWordsIntoPhrases
    rw [if_neg (show ¬(t :: ts) = [] by simp),
      if_neg (show ¬((t :: ts).any Token.isCleanedSegment = true) from by simp [hany])]
    unfold wordLevelGrouping
    have ht : jsTrim t.word ≠ "" := hnee t (List.mem_cons_self _ _)
    rw [scanWords, if_neg ht, if_neg (by simp)]
    dsimp only
    simp only [List.head?_cons, Option.map_some', Option.getD_some, Nat.zero_add,
      List.nil_append]
    have hrec := scanWords_eq_gapSplitGo thr ts 1 ([] : List TranscriptPhrase) [t] t
      { id := "phrase-0", text := "", start := t.start, endS := t.endS,
        words := [jsTrim t.word] }
      le_rfl (by simp) rfl
      (by intro x hx; simp only [List.mem_singleton] at hx; subst hx; exact ht)
      (fun x hx => hnee x (List.mem_cons_of_mem _ hx))
      rfl (by simp) rfl (by simp)
    rw [hrec]
    rfl
  · norm_num [groupWordsIntoPhrases, wordLevelGrouping, scanWords, pushCurPhrase]
    simp +decide

/-- Witness for C1 at a concrete word-level token list. -/
theorem C1_pause_grouping_witness :
    ([(⟨"Hi", 0, 1, false, ""⟩ : Token)] ≠ []) ∧
    groupWordsIntoPhrases [⟨"Hi", 0, 1, false, ""⟩] (1/4) =
      specGroupIntoPhrases [⟨"Hi", 0, 1, false, ""⟩] (1/4) :=
  ⟨by simp,
    C1_pause_grouping.1 [⟨"Hi", 0, 1, false, ""⟩] (1/4) (by simp)
      (by intro w hw; simp only [List.mem_singleton] at hw; subst hw; rfl)
      (by intro w hw; simp only [List.mem_singleton] at hw; subst hw; decide)⟩

end Onboarding
